import Mathlib

/-!
Verification development for the blog module of a personal portfolio website
(`blog.js`).  The module consists of a markdown-to-HTML renderer, a static
post registry, a post loader and a hash-based navigation controller.  All
string-processing code is shallowly embedded over `List Char`; every JavaScript
regular-expression replacement is modelled by an explicit scanner that follows
the semantics of the original pattern (leftmost match, greediness as in the
source pattern, `.` not matching a newline, `m`-anchored patterns acting per
line).
-/

/-- Strings are modelled as lists of characters. -/
abbrev Str := List Char

/-- The backtick character (code 96), written via `Char.ofNat`. -/
def btick : Char := Char.ofNat 96

/-- The double-quote character (code 34). -/
def dquote : Char := Char.ofNat 34

/-- The apostrophe character (code 39). -/
def apos : Char := Char.ofNat 39

/-- JavaScript whitespace as far as `String.prototype.trim` is concerned
(space, tab, newline, carriage return, vertical tab, form feed). -/
def isWsChar (c : Char) : Bool :=
  c == ' ' || c == '\t' || c == '\n' || c == '\r' || c == Char.ofNat 11 || c == Char.ofNat 12

/-- Model of `String.prototype.trim`: drop whitespace from both ends. -/
def jsTrim (s : Str) : Str :=
  ((s.dropWhile isWsChar).reverse.dropWhile isWsChar).reverse

/-- The escape table of `escapeHtml` (`const map = { ... }` in the source). -/
def escapeMap : List (Char × Str) :=
  [('&', "&amp;".data), ('<', "&lt;".data), ('>', "&gt;".data),
   (dquote, "&quot;".data), (apos, "&#039;".data)]

/-- The character class of the `escapeHtml` replacement pattern: one of the
five reserved characters. -/
def isEscTarget (c : Char) : Bool :=
  c == '&' || c == '<' || c == '>' || c == dquote || c == apos

/-- One step of `escapeHtml`: a matched character is replaced by its table
entry (an absent entry would be interpolated as the text `undefined`,
mirroring the JavaScript template-literal coercion); any other character is
kept. -/
def escChar (c : Char) : Str :=
  if isEscTarget c then (escapeMap.lookup c).getD "undefined".data else [c]

/-- Model of `escapeHtml`: replace each of the five reserved characters by its
entity. -/
def escapeHtml : Str → Str
  | [] => []
  | c :: cs => escChar c ++ escapeHtml cs

/-- The placeholder token for the `i`-th extracted code block
(`__CODE_BLOCK_i__` in the source). -/
def codePlaceholder (i : Nat) : Str :=
  "__CODE_BLOCK_".data ++ (Nat.repr i).data ++ "__".data

/-- The stored replacement for one fenced block:
`<pre><code>${escapeHtml(code.trim())}</code></pre>`. -/
def mkBlock (code : Str) : Str :=
  "<pre><code>".data ++ escapeHtml (jsTrim code) ++ "</code></pre>".data

/-- Locate the closing triple backtick for a fence: the non-greedy
`([\s\S]*?)` takes the shortest span up to the next occurrence of three
backticks.  Returns the span and the remainder after the closing fence. -/
def findTriple : Str → Option (Str × Str)
  | [] => none
  | c :: cs =>
    if c == btick && [btick, btick].isPrefixOf cs then some ([], cs.drop 2)
    else (findTriple cs).map (fun p => (c :: p.1, p.2))

/-- Scanner for the fence-extraction pass
(`markdown.replace(/```([\s\S]*?)```/g, ...)`).  At an opening triple backtick
with a matching closer, the whole fence is replaced by a placeholder and the
escaped block is recorded; without a closer the scan advances one character,
like the regex engine.  `fuel` bounds the recursion and is instantiated with
the length of the input, which always suffices. -/
def extractGo : Nat → Nat → Str → Str × List Str
  | 0, _, l => (l, [])
  | _ + 1, _, [] => ([], [])
  | fuel + 1, i, c :: cs =>
    if c == btick && [btick, btick].isPrefixOf cs then
      match findTriple (cs.drop 2) with
      | some (code, after) =>
        let r := extractGo fuel (i + 1) after
        (codePlaceholder i ++ r.1, mkBlock code :: r.2)
      | none =>
        let r := extractGo fuel i cs
        (c :: r.1, r.2)
    else
      let r := extractGo fuel i cs
      (c :: r.1, r.2)

/-- Fence extraction at the standard fuel. -/
def extractFences (md : Str) : Str × List Str := extractGo md.length 0 md

/-- Split a string at newline characters (the line structure used by the
`m`-anchored patterns). -/
def splitNl : Str → List Str
  | [] => [[]]
  | c :: cs =>
    if c == '\n' then [] :: splitNl cs
    else match splitNl cs with
      | [] => [[c]]
      | h :: t => (c :: h) :: t

/-- Join lines with single newlines (inverse of `splitNl`). -/
def joinLines : List Str → Str
  | [] => []
  | [l] => l
  | l :: ls => l ++ '\n' :: joinLines ls

/-- Apply a per-line transformation to a whole text, modelling a
`^...$`-anchored global multiline replacement whose replacement text contains
no newline. -/
def mapLines (f : Str → Str) (t : Str) : Str :=
  joinLines ((splitNl t).map f)

/-- The `^### (.*$)` line transform. -/
def h3Line (l : Str) : Str :=
  if "### ".data.isPrefixOf l then "<h3>".data ++ l.drop 4 ++ "</h3>".data else l

/-- The `^## (.*$)` line transform. -/
def h2Line (l : Str) : Str :=
  if "## ".data.isPrefixOf l then "<h2>".data ++ l.drop 3 ++ "</h2>".data else l

/-- The `^# (.*$)` line transform. -/
def h1Line (l : Str) : Str :=
  if "# ".data.isPrefixOf l then "<h1>".data ++ l.drop 2 ++ "</h1>".data else l

/-- The heading pass: the three heading patterns applied over the whole text,
longest marker first, exactly as chained in the source. -/
def headingStage (t : Str) : Str :=
  mapLines h1Line (mapLines h2Line (mapLines h3Line t))

/-- The `^---$` line transform (horizontal rule). -/
def hrLine (l : Str) : Str :=
  if l == "---".data then "<hr>".data else l

/-- The `^\* (.+)$` line transform (bulleted list item). -/
def liStarLine (l : Str) : Str :=
  if "* ".data.isPrefixOf l && !(l.drop 2).isEmpty then
    "<li>".data ++ l.drop 2 ++ "</li>".data
  else l

/-- The `^\d+\. (.+)$` line transform (numbered list item).  The greedy digit
run is the full maximal run: a shorter run is followed by a digit and cannot
be followed by the literal dot, so no backtracking case arises. -/
def liNumLine (l : Str) : Str :=
  let ds := l.takeWhile (·.isDigit)
  let rest := l.drop (ds.length + 2)
  if !ds.isEmpty && ". ".data.isPrefixOf (l.drop ds.length) && !rest.isEmpty then
    "<li>".data ++ rest ++ "</li>".data
  else l

/-- Find the first `**` before the end of the current line (the non-greedy
`(.*?)` span of the bold pattern, `.` not matching a newline). -/
def findDoubleStar : Str → Option (Str × Str)
  | [] => none
  | c :: cs =>
    if c == '\n' then none
    else if c == '*' && "*".data.isPrefixOf cs then some ([], cs.drop 1)
    else (findDoubleStar cs).map (fun p => (c :: p.1, p.2))

/-- Scanner for `/\*\*(.*?)\*\*/g` (bold).  At a double star with a closing
double star on the same line the span becomes `<strong>...</strong>`;
otherwise the scan advances one character. -/
def boldGo : Nat → Str → Str
  | 0, l => l
  | _ + 1, [] => []
  | fuel + 1, c :: cs =>
    if c == '*' && "*".data.isPrefixOf cs then
      match findDoubleStar (cs.drop 1) with
      | some (inner, rest) =>
        "<strong>".data ++ inner ++ "</strong>".data ++ boldGo fuel rest
      | none => c :: boldGo fuel cs
    else c :: boldGo fuel cs

/-- Bold pass at the standard fuel. -/
def boldStage (t : Str) : Str := boldGo t.length t

/-- Characters allowed in the non-greedy italic span: anything but a star or a
newline. -/
def notStarNl (c : Char) : Bool := !(c == '*' || c == '\n')

/-- Scanner for `/\*(.*?)\*/g` (italic).  At a star, the non-greedy span runs
to the next star on the same line; without one the scan advances. -/
def italicGo : Nat → Str → Str
  | 0, l => l
  | _ + 1, [] => []
  | fuel + 1, c :: cs =>
    if c == '*' then
      let inner := cs.takeWhile notStarNl
      match cs.drop inner.length with
      | '*' :: rest => "<em>".data ++ inner ++ "</em>".data ++ italicGo fuel rest
      | _ => c :: italicGo fuel cs
    else c :: italicGo fuel cs

/-- Italic pass at the standard fuel. -/
def italicStage (t : Str) : Str := italicGo t.length t

/-- Scanner for the inline-code pattern (backtick, one or more non-backtick
characters — newlines included, then a backtick).  The greedy class run ends
exactly at the next backtick.  Note that the source does not escape the
span. -/
def codeGo : Nat → Str → Str
  | 0, l => l
  | _ + 1, [] => []
  | fuel + 1, c :: cs =>
    if c == btick then
      let run := cs.takeWhile (fun d => !(d == btick))
      if !run.isEmpty && (cs.drop run.length).headD ' ' == btick then
        "<code>".data ++ run ++ "</code>".data ++ codeGo fuel (cs.drop (run.length + 1))
      else c :: codeGo fuel cs
    else c :: codeGo fuel cs

/-- Inline-code pass at the standard fuel. -/
def codeStage (t : Str) : Str := codeGo t.length t

/-- Prepend a character to the first block of a split result. -/
def consHead (c : Char) : List Str → List Str
  | [] => [[c]]
  | h :: t => (c :: h) :: t

/-- Model of `split('\n\n')`: split at each non-overlapping, leftmost
occurrence of a double newline. -/
def splitParas : Str → List Str
  | [] => [[]]
  | c :: cs =>
    if c = '\n' then
      match cs with
      | '\n' :: cs2 => [] :: splitParas cs2
      | [] => [[c]]
      | d :: cs2 => consHead c (splitParas (d :: cs2))
    else consHead c (splitParas cs)

/-- The block test `^<[h|l|h|u|o]`: an opening angle bracket followed by one
of `h`, `|`, `l`, `u`, `o` (the class contains the literal pipe). -/
def paraStarts (b : Str) : Bool :=
  match b with
  | '<' :: c :: _ => c == 'h' || c == '|' || c == 'l' || c == 'u' || c == 'o'
  | _ => false

/-- The paragraph mapper of the source: blocks that already start with a
recognised tag or a placeholder are kept, blank blocks become empty strings,
anything else is wrapped in a paragraph tag (unescaped and untrimmed). -/
def paraMap (b : Str) : Str :=
  if paraStarts b then b
  else if "__CODE_BLOCK_".data.isPrefixOf b then b
  else if !(jsTrim b).isEmpty then "<p>".data ++ b ++ "</p>".data
  else []

/-- The paragraph pass: split on blank lines, map, and re-join with single
newlines (empty results included, as in `Array.prototype.join`). -/
def paraStage (t : Str) : Str :=
  joinLines ((splitParas t).map paraMap)

/-- Find the first occurrence of `pat` in a string, returning the parts
before and after it. -/
def findSub (pat : Str) : Str → Option (Str × Str)
  | [] => if pat.isEmpty then some ([], []) else none
  | c :: cs =>
    if pat.isPrefixOf (c :: cs) then some ([], (c :: cs).drop pat.length)
    else (findSub pat cs).map (fun p => (c :: p.1, p.2))

/-- `GetSubstitution` for a string replacement: `$$`, `$&`, a dollar before a
backtick, and a dollar before an apostrophe are special; any other dollar is
literal.  (With a string pattern there are no capture groups, so `$n` stays
literal.) -/
def substMatch (m before after : Str) : Str → Str
  | [] => []
  | c :: r =>
    if c = '$' then
      match r with
      | [] => ['$']
      | d :: r2 =>
        if d = '$' then '$' :: substMatch m before after r2
        else if d = '&' then m ++ substMatch m before after r2
        else if d = btick then before ++ substMatch m before after r2
        else if d = apos then after ++ substMatch m before after r2
        else '$' :: substMatch m before after (d :: r2)
    else c :: substMatch m before after r

/-- Model of `String.prototype.replace` with a string pattern and a string
replacement: replace the first occurrence, applying the substitution rules to
the replacement text. -/
def jsReplaceFirst (pat repl s : Str) : Str :=
  match findSub pat s with
  | none => s
  | some (before, after) => before ++ substMatch pat before after repl ++ after

/-- The restoration loop: `codeBlocks.forEach((block, i) => html =
html.replace(placeholder(i), block))`. -/
def restoreGo : Nat → List Str → Str → Str
  | _, [], h => h
  | i, b :: bs, h => restoreGo (i + 1) bs (jsReplaceFirst (codePlaceholder i) b h)

/-- Inside the list-wrapping pattern, one iteration body after the `<li>`
marker: the greedy `.*` backtracks to the last `</li>` of the current line.
Returns the consumed span (ending with `</li>`) and the remainder. -/
def lineCloseSplit : Nat → Str → Option (Str × Str)
  | 0, _ => none
  | _ + 1, [] => none
  | fuel + 1, c :: cs =>
    if c == '\n' then none
    else if "</li>".data.isPrefixOf (c :: cs) then
      match lineCloseSplit fuel ((c :: cs).drop 5) with
      | some (x, r) => some ("</li>".data ++ x, r)
      | none => some ("</li>".data, (c :: cs).drop 5)
    else (lineCloseSplit fuel cs).map (fun p => (c :: p.1, p.2))

/-- One maximal match of `(<li>.*<\/li>\n?)+` starting at the current
position: an iteration needs a `<li>` marker and a closing `</li>` on the same
line; a trailing newline is consumed greedily and the run continues on the
next line when possible. -/
def runGo : Nat → Str → Option (Str × Str)
  | 0, _ => none
  | fuel + 1, l =>
    if "<li>".data.isPrefixOf l then
      match lineCloseSplit l.length (l.drop 4) with
      | none => none
      | some (x, r) =>
        match r with
        | c :: r' =>
          if c = '\n' then
            match runGo fuel r' with
            | some (y, rest) => some ("<li>".data ++ x ++ '\n' :: y, rest)
            | none => some ("<li>".data ++ x ++ ['\n'], r')
          else some ("<li>".data ++ x, c :: r')
        | [] => some ("<li>".data ++ x, [])
    else none

/-- Scanner for the final wrapping replacement: each maximal run of `<li>`
material is wrapped in a single `<ul>` container; elsewhere the scan advances
one character. -/
def wrapGo : Nat → Str → Str
  | 0, l => l
  | _ + 1, [] => []
  | fuel + 1, c :: cs =>
    match runGo (fuel + 1) (c :: cs) with
    | some (run, rest) => "<ul>".data ++ run ++ "</ul>".data ++ wrapGo fuel rest
    | none => c :: wrapGo fuel cs

/-- List-wrapping pass at the standard fuel. -/
def ulWrapStage (t : Str) : Str := wrapGo t.length t

/-- The pipeline after fence extraction: headings, horizontal rules, bold,
italic, inline code, the two list-item passes, paragraph wrapping, placeholder
restoration and list wrapping — in exactly the order of the source. -/
def pipelineAfterExtract (t0 : Str) (blocks : List Str) : Str :=
  ulWrapStage (restoreGo 0 blocks
    (paraStage (mapLines liNumLine (mapLines liStarLine
      (codeStage (italicStage (boldStage
        (mapLines hrLine (headingStage t0)))))))))

/-- Model of `markdownToHtml`: extract fences, run the transform pipeline,
restore the fences and wrap the list runs. -/
def markdownToHtmlCore (md : Str) : Str :=
  let fe := extractFences md
  pipelineAfterExtract fe.1 fe.2

/-- `markdownToHtml` on ordinary strings. -/
def markdownToHtml (md : String) : String :=
  ⟨markdownToHtmlCore md.data⟩

/-!  An exception-aware variant of the renderer.  The only lookup in
`markdownToHtml` that could be absent is the access `map[m]` inside the
`escapeHtml` callback; the variant turns a missing entry into an error and is
proved to always succeed, which expresses that the renderer is total. -/

/-- `escapeHtml` with an explicit error on a missing table entry. -/
def escapeHtmlE : Str → Except Str Str
  | [] => .ok []
  | c :: cs =>
    if isEscTarget c then
      match escapeMap.lookup c with
      | some r => (escapeHtmlE cs).map (fun t => r ++ t)
      | none => .error "missing escape entry".data
    else (escapeHtmlE cs).map (fun t => c :: t)

/-- The stored block, exception-aware. -/
def mkBlockE (code : Str) : Except Str Str :=
  (escapeHtmlE (jsTrim code)).map
    (fun e => "<pre><code>".data ++ e ++ "</code></pre>".data)

/-- Fence extraction, exception-aware. -/
def extractGoE : Nat → Nat → Str → Except Str (Str × List Str)
  | 0, _, l => .ok (l, [])
  | _ + 1, _, [] => .ok ([], [])
  | fuel + 1, i, c :: cs =>
    if c == btick && [btick, btick].isPrefixOf cs then
      match findTriple (cs.drop 2) with
      | some (code, after) =>
        match mkBlockE code, extractGoE fuel (i + 1) after with
        | .ok b, .ok r => .ok (codePlaceholder i ++ r.1, b :: r.2)
        | .error e, _ => .error e
        | _, .error e => .error e
      | none =>
        (extractGoE fuel i cs).map (fun r => (c :: r.1, r.2))
    else
      (extractGoE fuel i cs).map (fun r => (c :: r.1, r.2))

/-- The renderer with explicit failure propagation from the escape table. -/
def markdownToHtmlCoreE (md : Str) : Except Str Str :=
  (extractGoE md.length 0 md).map (fun fe => pipelineAfterExtract fe.1 fe.2)

/-!  The post registry, the list view, the post loader and the navigation
controller. -/

/-- Metadata of one registered post (`blogPosts` entries in the source). -/
structure PostMeta where
  title : Str
  filename : Str
  date : Str
  description : Str
deriving DecidableEq, Repr

/-- First registry entry. -/
def redisPost : PostMeta :=
  { title := "Building a Type-Safe Redis Client in OCaml".data
    filename := "building-redis-client-ocaml.md".data
    date := "2025-08-27".data
    description := "Exploring OCaml's type system by building a native Redis client with compile-time protocol correctness.".data }

/-- Second registry entry. -/
def welcomePost : PostMeta :=
  { title := "Welcome to My Blog".data
    filename := "welcome-to-my-blog.md".data
    date := "2025-08-27".data
    description := "My first blog post introducing what you can expect from this blog.".data }

/-- The post registry (`const blogPosts = [...]`). -/
def blogPosts : List PostMeta := [redisPost, welcomePost]

/-- Digits of a decimal string as a number. -/
def digitsToNat (s : Str) : Nat :=
  s.foldl (fun n c => 10 * n + (c.toNat - 48)) 0

/-- Civil-calendar day number of a `YYYY-MM-DD` date (days since 0000-03-01,
Gregorian).  `new Date(dateStr)` yields this number times 86400000 up to a
fixed epoch offset; the offset cancels in the comparator difference, so the
comparator value is modelled exactly for well-formed ISO dates. -/
def dateDayNumber (s : Str) : Nat :=
  let year := digitsToNat (s.take 4)
  let month := digitsToNat ((s.drop 5).take 2)
  let day := digitsToNat ((s.drop 8).take 2)
  let y := if month ≤ 2 then year - 1 else year
  let m := if month ≤ 2 then month + 9 else month - 3
  y * 365 + y / 4 - y / 100 + y / 400 + (153 * m + 2) / 5 + day - 1

/-- The sort key used by the comparator `new Date(b.date) - new Date(a.date)`
(milliseconds, up to the cancelled epoch offset). -/
def dateValue (p : PostMeta) : Nat := 86400000 * dateDayNumber p.date

/-- Insert a post into an already-sorted (descending) list, after every entry
with a greater-or-equal key: this is where a stable sort puts an element that
arrived later in the original order. -/
def insertPost (p : PostMeta) : List PostMeta → List PostMeta
  | [] => [p]
  | q :: qs =>
    if dateValue q ≤ dateValue p then p :: q :: qs
    else q :: insertPost p qs

/-- Model of `blogPosts.sort((a, b) => new Date(b.date) - new Date(a.date))`:
`Array.prototype.sort` is a stable sort (ES2019), and a stable sort under a
total-preorder comparator is the unique list that is sorted by the comparator
and keeps the original order of comparator-equal elements; stable insertion
from the left realises it. -/
def jsSortPosts : List PostMeta → List PostMeta
  | [] => []
  | p :: ps => insertPost p (jsSortPosts ps)

/-- Model of `loadBlogPosts`: the registry array is sorted in place (the
`const sortedPosts = blogPosts.sort(...)` call mutates `blogPosts` itself and
returns the same array), and the sorted entries are rendered in order.  The
first component is the registry after the call, the second the display
order. -/
def loadBlogPosts (registry : List PostMeta) : List PostMeta × List PostMeta :=
  let sorted := jsSortPosts registry
  (sorted, sorted)

/-- Outcome of the `fetch` of `posts/<filename>`: the promise either rejects
(network error) or resolves to a response carrying the HTTP success flag
(`response.ok`) and the outcome of reading the body text. -/
inductive FetchOutcome where
  | netError : FetchOutcome
  | response (ok : Bool) (body : Except Unit Str) : FetchOutcome

/-- What `loadPost` leaves in the content area: rendered article HTML, or the
inline error message written by the `catch` handler. -/
inductive LoadView where
  | content (html : Str) : LoadView
  | errorMessage (msg : Str) : LoadView
deriving DecidableEq

/-- The inline error markup of the `catch` handler. -/
def loadErrorHtml : Str := "<p>Error loading post.</p>".data

/-- Model of `loadPost`: any rejection inside the `try` block (the fetch
itself or reading the body) lands in the `catch` and shows the inline error;
otherwise the body text is rendered.  Note that the code never consults
`response.ok`: the HTTP status flag is ignored. -/
def loadPost (f : FetchOutcome) : LoadView :=
  match f with
  | .netError => .errorMessage loadErrorHtml
  | .response _ body =>
    match body with
    | .error _ => .errorMessage loadErrorHtml
    | .ok md => .content (markdownToHtmlCore md)

/-- The slug computation of `checkForDirectLink`:
`p.filename.replace('.md', '')` removes the first occurrence of `.md`. -/
def jsSlug (filename : Str) : Str :=
  jsReplaceFirst ".md".data [] filename

/-- Slug derivation as worded in the specification: the filename with its
`.md` extension removed. -/
def specSlug (filename : Str) : Str :=
  if ".md".data.isSuffixOf filename then filename.take (filename.length - 3)
  else filename

/-- The decision of the navigation controller on page load (and on a history
`popstate` event, which runs the same function). -/
inductive NavAction where
  | post (p : PostMeta) : NavAction
  | list : NavAction
deriving DecidableEq

/-- Model of `checkForDirectLink`: with a non-empty fragment that matches a
registry slug the matching post is loaded, otherwise the list view is
built. -/
def checkForDirectLink (hash : Str) : NavAction :=
  if !hash.isEmpty then
    match blogPosts.find? (fun p => jsSlug p.filename == hash) with
    | some p => .post p
    | none => .list
  else .list

/-!  Input families used by the list-grouping theorem. -/

/-- A bulleted source line `* <item>`. -/
def bulletLine (it : Str) : Str := '*' :: ' ' :: it

/-- A rendered list item. -/
def mkLi (it : Str) : Str := "<li>".data ++ it ++ "</li>".data

/-- A markdown document consisting of a run of bulleted lines, a blank line
and a trailing paragraph `text`. -/
def listInput (items : List Str) : Str :=
  joinLines (items.map bulletLine ++ [[], "text".data])

/-!  Decidable side conditions used to characterise when the scanners leave a
string unchanged. -/

/-- No two adjacent stars anywhere (the bold pattern can never fire). -/
def noDoubleStar : Str → Bool
  | [] => true
  | c :: cs => !(c == '*' && cs.headD ' ' == '*') && noDoubleStar cs

/-- No star is closed by another star on its line (the italic pattern can
never fire). -/
def noItalicPair : Str → Bool
  | [] => true
  | c :: cs =>
    (if c == '*' then !((cs.drop (cs.takeWhile notStarNl).length).headD ' ' == '*')
     else true) && noItalicPair cs

/-- No occurrence of the `<li>` marker (the list-wrapping pattern can never
fire). -/
def noLiOcc : Str → Bool
  | [] => true
  | c :: cs => !("<li>".data.isPrefixOf (c :: cs)) && noLiOcc cs

/-- No blank line (no two adjacent newlines). -/
def noDoubleNl : Str → Bool
  | [] => true
  | c :: cs => !(c == '\n' && cs.headD ' ' == '\n') && noDoubleNl cs

/-- A sample post dated 2025-08-27 (the date of the newer post in the
specification's sorting example). -/
def postAug27 : PostMeta :=
  { title := "newer".data, filename := "newer.md".data
    date := "2025-08-27".data, description := "newer post".data }

/-- A sample post dated 2025-08-01 (the older date in the specification's
sorting example). -/
def postAug01 : PostMeta :=
  { title := "older".data, filename := "older.md".data
    date := "2025-08-01".data, description := "older post".data }

/-!  ## Helper lemmas about lines -/

/-- `splitNl` never returns the empty list. -/
theorem splitNl_ne_nil (t : Str) : splitNl t ≠ [] := by
  cases t with
  | nil => simp [splitNl]
  | cons c cs =>
    simp only [splitNl]
    split
    · simp
    · cases h : splitNl cs <;> simp

/-- Prepending a character to the first line. -/
theorem joinLines_cons_cons (c : Char) (h : Str) (t : List Str) :
    joinLines ((c :: h) :: t) = c :: joinLines (h :: t) := by
  cases t <;> simp [joinLines]

/-- Joining the split lines reproduces the text. -/
theorem joinLines_splitNl (t : Str) : joinLines (splitNl t) = t := by
  induction t with
  | nil => simp [splitNl, joinLines]
  | cons c cs ih =>
    simp only [splitNl]
    split
    · rename_i hc
      have hne := splitNl_ne_nil cs
      cases h : splitNl cs with
      | nil => exact absurd h hne
      | cons l ls =>
        rw [h] at ih
        simp_all [joinLines]
    · rename_i hc
      have hne := splitNl_ne_nil cs
      cases h : splitNl cs with
      | nil => exact absurd h hne
      | cons l ls =>
        rw [h] at ih
        rw [joinLines_cons_cons]
        simp_all

/-- A newline-free string is a single line. -/
theorem splitNl_no_nl (s : Str) (h : '\n' ∉ s) : splitNl s = [s] := by
  induction s with
  | nil => rfl
  | cons c cs ih =>
    simp only [List.mem_cons, not_or] at h
    simp only [splitNl]
    rw [if_neg (by exact fun hh => h.1 (beq_iff_eq.mp hh).symm), ih h.2]

/-- Splitting after a newline-free line. -/
theorem splitNl_append_nl (l r : Str) (hl : '\n' ∉ l) :
    splitNl (l ++ '\n' :: r) = l :: splitNl r := by
  induction l with
  | nil =>
    simp only [List.nil_append, splitNl]
    rw [if_pos (by simp)]
  | cons c cl ih =>
    simp only [List.mem_cons, not_or] at hl
    simp only [List.cons_append, splitNl]
    rw [if_neg (by exact fun hh => hl.1 (beq_iff_eq.mp hh).symm)]
    simp only [List.append_eq]
    rw [ih hl.2]

/-- Splitting a newline-joined list of newline-free lines recovers the
lines. -/
theorem splitNl_joinLines (ls : List Str) (h : ∀ l ∈ ls, '\n' ∉ l)
    (hne : ls ≠ []) : splitNl (joinLines ls) = ls := by
  induction ls with
  | nil => exact absurd rfl hne
  | cons l ls ih =>
    cases ls with
    | nil =>
      simp only [joinLines]
      exact splitNl_no_nl l (h l (by simp))
    | cons l2 ls2 =>
      have hl : '\n' ∉ l := h l (by simp)
      have hrest : splitNl (joinLines (l2 :: ls2)) = l2 :: ls2 :=
        ih (fun x hx => h x (by simp [hx])) (by simp)
      simp only [joinLines]
      rw [splitNl_append_nl l _ hl, hrest]

/-- Mapping a function that fixes every element fixes the list. -/
theorem map_self_of_fix {α : Type} (f : α → α) (l : List α)
    (h : ∀ x ∈ l, f x = x) : l.map f = l := by
  induction l with
  | nil => rfl
  | cons x xs ih =>
    simp only [List.map_cons]
    rw [h x (by simp), ih (fun y hy => h y (by simp [hy]))]

/-- Mapping a function that fixes every line fixes the text. -/
theorem mapLines_id (f : Str → Str) (t : Str)
    (h : ∀ l ∈ splitNl t, f l = l) : mapLines f t = t := by
  unfold mapLines
  rw [map_self_of_fix f (splitNl t) h, joinLines_splitNl]

/-- Mapping over a joined block of newline-free lines maps the lines. -/
theorem mapLines_joinLines (f : Str → Str) (ls : List Str)
    (h : ∀ l ∈ ls, '\n' ∉ l) (hne : ls ≠ []) :
    mapLines f (joinLines ls) = joinLines (ls.map f) := by
  unfold mapLines
  rw [splitNl_joinLines ls h hne]

/-!  ## Identity lemmas for the scanners -/

/-- The single-star pattern test in terms of the head character. -/
theorem starPrefix_eq (cs : Str) :
    ("*".data.isPrefixOf cs) = (cs.headD ' ' == '*') := by
  cases cs with
  | nil => rfl
  | cons d ds =>
    simp [List.isPrefixOf, BEq.comm]

/-- A backtick-free string passes the inline-code scanner unchanged. -/
theorem codeGo_id (fuel : Nat) (l : Str) (h : ∀ c ∈ l, ¬c = btick) :
    codeGo fuel l = l := by
  induction l generalizing fuel with
  | nil => cases fuel <;> rfl
  | cons c cs ih =>
    cases fuel with
    | zero => rfl
    | succ fuel =>
      simp only [codeGo]
      rw [if_neg (by exact fun hh => h c (by simp) (beq_iff_eq.mp hh))]
      rw [ih fuel (fun d hd => h d (by simp [hd]))]

/-- A backtick-free string passes the fence extraction unchanged, producing no
blocks. -/
theorem extractGo_id (fuel i : Nat) (l : Str) (h : ∀ c ∈ l, ¬c = btick) :
    extractGo fuel i l = (l, []) := by
  induction l generalizing fuel i with
  | nil => cases fuel <;> rfl
  | cons c cs ih =>
    cases fuel with
    | zero => rfl
    | succ fuel =>
      simp only [extractGo]
      rw [if_neg]
      · rw [ih fuel i (fun d hd => h d (by simp [hd]))]
      · simp only [Bool.and_eq_true, not_and]
        intro hc
        exact absurd (beq_iff_eq.mp hc) (h c (by simp))
        

/-- A string with no adjacent stars passes the bold scanner unchanged. -/
theorem boldGo_id (fuel : Nat) (l : Str) (h : noDoubleStar l = true) :
    boldGo fuel l = l := by
  induction l generalizing fuel with
  | nil => cases fuel <;> rfl
  | cons c cs ih =>
    simp only [noDoubleStar, Bool.and_eq_true, Bool.not_eq_true'] at h
    cases fuel with
    | zero => rfl
    | succ fuel =>
      simp only [boldGo]
      rw [if_neg (by rw [starPrefix_eq, h.1]; simp), ih fuel h.2]

/-- A string in which no star is closed on its own line passes the italic
scanner unchanged. -/
theorem italicGo_id (fuel : Nat) (l : Str) (h : noItalicPair l = true) :
    italicGo fuel l = l := by
  induction l generalizing fuel with
  | nil => cases fuel <;> rfl
  | cons c cs ih =>
    simp only [noItalicPair, Bool.and_eq_true] at h
    cases fuel with
    | zero => rfl
    | succ fuel =>
      simp only [italicGo]
      by_cases hc : c == '*'
      · rw [if_pos hc]
        simp only [hc, if_true, Bool.not_eq_true'] at h
        cases hd : cs.drop (cs.takeWhile notStarNl).length with
        | nil =>
          show c :: italicGo fuel cs = c :: cs
          rw [ih fuel h.2]
        | cons d rest =>
          rw [hd] at h
          have hdne : ¬d = '*' := by
            intro he
            rw [he] at h
            simp at h
          split
          · rename_i rest2 heq
            injection heq with h1 _
            exact absurd h1 hdne
          · show c :: italicGo fuel cs = c :: cs
            rw [ih fuel h.2]
      · rw [if_neg hc, ih fuel h.2]

/-- Without a `<li>` marker at the current position the run matcher fails. -/
theorem runGo_none (fuel : Nat) (l : Str)
    (h : ¬("<li>".data.isPrefixOf l = true)) : runGo fuel l = none := by
  cases fuel with
  | zero => rfl
  | succ fuel => simp only [runGo]; rw [if_neg h]

/-- A string without `<li>` markers passes the list-wrapping scanner
unchanged. -/
theorem wrapGo_id (fuel : Nat) (l : Str) (h : noLiOcc l = true) :
    wrapGo fuel l = l := by
  induction l generalizing fuel with
  | nil => cases fuel <;> rfl
  | cons c cs ih =>
    simp only [noLiOcc, Bool.and_eq_true, Bool.not_eq_true'] at h
    cases fuel with
    | zero => rfl
    | succ fuel =>
      simp only [wrapGo]
      rw [runGo_none _ _ (by simp [h.1])]
      rw [ih fuel h.2]

/-!  ## Escaping lemmas -/

/-- Unfolding of the escape-class test. -/
theorem isEscTarget_cases (c : Char) (h : isEscTarget c = true) :
    c = '&' ∨ c = '<' ∨ c = '>' ∨ c = dquote ∨ c = apos := by
  simp only [isEscTarget, Bool.or_eq_true, beq_iff_eq] at h
  tauto

/-- One escaped character never contains an opening angle bracket. -/
theorem escChar_no_lt (c : Char) : '<' ∉ escChar c := by
  by_cases h : isEscTarget c = true
  · rcases isEscTarget_cases c h with h | h | h | h | h <;> subst h <;> decide
  · unfold escChar
    rw [if_neg h]
    intro hm
    simp only [List.mem_singleton] at hm
    subst hm
    exact h (by decide)

/-- The escaped text never contains an opening angle bracket. -/
theorem escapeHtml_no_lt (s : Str) : '<' ∉ escapeHtml s := by
  induction s with
  | nil => simp [escapeHtml]
  | cons c cs ih =>
    simp only [escapeHtml, List.mem_append, not_or]
    exact ⟨escChar_no_lt c, ih⟩

/-- Escaping a dollar-free character yields dollar-free text. -/
theorem escChar_no_dollar (c : Char) (hc : ¬c = '$') : '$' ∉ escChar c := by
  by_cases h : isEscTarget c = true
  · rcases isEscTarget_cases c h with h | h | h | h | h <;> subst h <;> decide
  · unfold escChar
    rw [if_neg h]
    intro hm
    simp only [List.mem_singleton] at hm
    exact hc hm.symm

/-- Escaping dollar-free text yields dollar-free text. -/
theorem escapeHtml_no_dollar (s : Str) (h : '$' ∉ s) : '$' ∉ escapeHtml s := by
  induction s with
  | nil => simp [escapeHtml]
  | cons c cs ih =>
    simp only [List.mem_cons, not_or] at h
    simp only [escapeHtml, List.mem_append, not_or]
    exact ⟨escChar_no_dollar c (fun he => h.1 he.symm), ih h.2⟩

/-- Trimming keeps only characters of the original string. -/
theorem jsTrim_subset (s : Str) (c : Char) (h : c ∈ jsTrim s) : c ∈ s := by
  unfold jsTrim at h
  rw [List.mem_reverse] at h
  have h2 := (List.dropWhile_sublist (l := (s.dropWhile isWsChar).reverse)
    (p := isWsChar)).subset h
  rw [List.mem_reverse] at h2
  exact (List.dropWhile_sublist (l := s) (p := isWsChar)).subset h2

/-- A dollar-free replacement string is substituted literally. -/
theorem substMatch_no_dollar (m b a r : Str) (h : '$' ∉ r) :
    substMatch m b a r = r := by
  induction r with
  | nil => rfl
  | cons c r ih =>
    simp only [List.mem_cons, not_or] at h
    have hc : ¬c = '$' := fun he => h.1 he.symm
    unfold substMatch
    rw [if_neg hc, ih h.2]

/-- The exception-aware escape never fails and agrees with `escapeHtml`. -/
theorem escapeHtmlE_ok (s : Str) : escapeHtmlE s = .ok (escapeHtml s) := by
  induction s with
  | nil => rfl
  | cons c cs ih =>
    simp only [escapeHtmlE, escapeHtml]
    by_cases h : isEscTarget c = true
    · rw [if_pos h]
      rcases isEscTarget_cases c h with hh | hh | hh | hh | hh <;> subst hh <;>
        · rw [ih]
          rfl
    · rw [if_neg h, ih]
      simp only [Except.map]
      unfold escChar
      rw [if_neg h]
      rfl

/-- The exception-aware block construction never fails. -/
theorem mkBlockE_ok (code : Str) : mkBlockE code = .ok (mkBlock code) := by
  unfold mkBlockE mkBlock
  rw [escapeHtmlE_ok]
  rfl

/-- The exception-aware extraction never fails and agrees with
`extractGo`. -/
theorem extractGoE_ok (fuel i : Nat) (l : Str) :
    extractGoE fuel i l = .ok (extractGo fuel i l) := by
  induction fuel generalizing i l with
  | zero => rfl
  | succ fuel ih =>
    cases l with
    | nil => rfl
    | cons c cs =>
      simp only [extractGoE, extractGo]
      by_cases h : (c == btick && [btick, btick].isPrefixOf cs) = true
      · rw [if_pos h, if_pos h]
        cases hf : findTriple (cs.drop 2) with
        | none =>
          simp only
          rw [ih i cs]
          rfl
        | some p =>
          cases p with
          | mk code after =>
            simp only
            rw [mkBlockE_ok, ih (i + 1) after]
      · rw [if_neg h, if_neg h, ih i cs]
        rfl

/-- C3.  The renderer is total: for every input string the exception-aware
variant (which faults on any failing table access) returns successfully, and
its result is the string computed by `markdownToHtmlCore`; unrecognised
syntax falls through to paragraph content rather than failing, as the sample
conjunct shows. -/
theorem c3_render_total :
    (∀ md : Str, markdownToHtmlCoreE md = .ok (markdownToHtmlCore md)) ∧
    markdownToHtmlCore "[[[ not markdown".data = "<p>[[[ not markdown</p>".data := by
  constructor
  · intro md
    unfold markdownToHtmlCoreE markdownToHtmlCore extractFences
    rw [extractGoE_ok]
    rfl
  · decide

/-!  ## Post loader (C4) -/

/-- C4 counterexample.  A resolved fetch with a non-success HTTP status flag
(`response.ok = false`) and a readable body is *not* turned into a load
error: `loadPost` renders the body text, because the code never consults
`response.ok`.  The claim predicts a `LoadError` here. -/
theorem c4_counterexample :
    loadPost (.response false (.ok "Not Found".data)) =
      .content "<p>Not Found</p>".data ∧
    ∀ msg, ¬loadPost (.response false (.ok "Not Found".data)) =
      .errorMessage msg := by
  constructor
  · decide
  · intro msg h
    simp [loadPost] at h

/-- C4 (amended).  The loader returns rendered HTML exactly when the fetch
promise resolves and the body is readable — regardless of the HTTP status
flag — and shows the inline error message exactly on a rejected fetch or an
unreadable body. -/
theorem c4_amended_load :
    (∀ (ok : Bool) (md : Str),
      loadPost (.response ok (.ok md)) = .content (markdownToHtmlCore md)) ∧
    loadPost .netError = .errorMessage loadErrorHtml ∧
    (∀ (ok : Bool) (e : Unit),
      loadPost (.response ok (.error e)) = .errorMessage loadErrorHtml) :=
  ⟨fun _ _ => rfl, rfl, fun _ _ => rfl⟩

/-!  ## Navigation controller (C5) and slug injectivity (C9) -/

/-- C5.  On initial load (and on a history event, which runs the same
function) a fragment equal to a registry entry's slug — the filename with the
`.md` extension removed — selects that post directly, and a fragment (empty
or not) matching no entry's slug falls back to the list view with no error
state. -/
theorem c5_controller :
    (∀ p ∈ blogPosts, checkForDirectLink (specSlug p.filename) = .post p) ∧
    (∀ h : Str, (∀ p ∈ blogPosts, ¬specSlug p.filename = h) →
      checkForDirectLink h = .list) := by
  constructor
  · intro p hp
    simp only [blogPosts, List.mem_cons, List.mem_singleton,
      List.not_mem_nil, or_false] at hp
    rcases hp with hp | hp <;> subst hp <;> decide
  · intro h hh
    have h1 : ¬specSlug redisPost.filename = h :=
      hh redisPost (by simp [blogPosts])
    have h2 : ¬specSlug welcomePost.filename = h :=
      hh welcomePost (by simp [blogPosts])
    have e1 : jsSlug redisPost.filename = specSlug redisPost.filename := by
      decide
    have e2 : jsSlug welcomePost.filename = specSlug welcomePost.filename := by
      decide
    have f1 : (jsSlug redisPost.filename == h) = false := by
      rw [e1]; exact beq_eq_false_iff_ne.mpr h1
    have f2 : (jsSlug welcomePost.filename == h) = false := by
      rw [e2]; exact beq_eq_false_iff_ne.mpr h2
    unfold checkForDirectLink
    by_cases hempty : h.isEmpty = true
    · rw [if_neg (by simp [hempty])]
    · rw [if_pos (by simp [hempty])]
      simp [blogPosts, List.find?, f1, f2]

/-- C5 witness: the deep link `#welcome-to-my-blog` selects the welcome
post on load, bypassing the list view. -/
theorem c5_witness :
    checkForDirectLink "welcome-to-my-blog".data = .post welcomePost := by
  have h := c5_controller.1 welcomePost (by simp [blogPosts])
  rwa [show specSlug welcomePost.filename = "welcome-to-my-blog".data by
    decide] at h

/-- C9.  The registry's filenames are pairwise distinct, and on the registry
the slug derivation used for deep-link matching sends distinct filenames to
distinct slugs. -/
theorem c9_slug_injective :
    List.Pairwise (fun p q : PostMeta => ¬p.filename = q.filename) blogPosts ∧
    (∀ p ∈ blogPosts, ∀ q ∈ blogPosts, ¬p.filename = q.filename →
      ¬jsSlug p.filename = jsSlug q.filename) := by
  constructor
  · decide
  · intro p hp q hq hne
    simp only [blogPosts, List.mem_cons, List.mem_singleton,
      List.not_mem_nil, or_false] at hp hq
    rcases hp with hp | hp <;> rcases hq with hq | hq <;> subst hp <;>
      subst hq <;> first | exact absurd rfl hne | decide

/-- C9 witness: the two registry entries have distinct slugs. -/
theorem c9_witness :
    ¬jsSlug redisPost.filename = jsSlug welcomePost.filename :=
  c9_slug_injective.2 redisPost (by simp [blogPosts]) welcomePost
    (by simp [blogPosts]) (by decide)

/-!  ## Escaping scope (C2) -/

/-- C2 counterexample.  The inline-code path does not escape: a literal `<`
inside inline code is emitted raw, not as `&lt;`, contradicting the claim
that the inline-code path escapes the five reserved characters. -/
theorem c2_counterexample :
    markdownToHtmlCore "`<`".data = "<p><code><</code></p>".data ∧
    ¬markdownToHtmlCore "`<`".data = "<p><code>&lt;</code></p>".data := by
  decide

/-- C2 (amended).  Exactly the fenced-code path escapes the five reserved
characters; inline-code content and prose are emitted without escaping, so a
reserved character passes through unchanged there. -/
theorem c2_amended_escape_scope :
    ∀ c ∈ ['&', '<', '>', dquote, apos],
      markdownToHtmlCore ("```".data ++ [c] ++ "```".data) =
        "<pre><code>".data ++ escChar c ++ "</code></pre>".data ∧
      markdownToHtmlCore [btick, c, btick] =
        "<p><code>".data ++ [c] ++ "</code></p>".data ∧
      markdownToHtmlCore ("x ".data ++ [c]) =
        "<p>x ".data ++ [c] ++ "</p>".data ∧
      ¬escChar c = [c] := by
  intro c hc
  fin_cases hc <;> exact ⟨by decide, by decide, by decide, by decide⟩

/-- C2 witness at the character `<`. -/
theorem c2_amended_witness :
    markdownToHtmlCore ("```".data ++ ['<'] ++ "```".data) =
      "<pre><code>".data ++ escChar '<' ++ "</code></pre>".data ∧
    markdownToHtmlCore [btick, '<', btick] =
      "<p><code>".data ++ ['<'] ++ "</code></p>".data ∧
    markdownToHtmlCore ("x ".data ++ ['<']) =
      "<p>x ".data ++ ['<'] ++ "</p>".data ∧
    ¬escChar '<' = ['<'] :=
  c2_amended_escape_scope '<' (by decide)

/-!  ## Heading precedence (C7) -/

/-- C7.  A line starting with `### ` becomes a level-3 heading with the
marker stripped — the longest marker is checked first, so it is never taken
by the level-1 or level-2 rule — and the full pipeline renders `### Title`
accordingly. -/
theorem c7_heading_precedence :
    (∀ rest : Str, '\n' ∉ rest →
      headingStage ("### ".data ++ rest) =
        "<h3>".data ++ rest ++ "</h3>".data) ∧
    markdownToHtmlCore "### Title".data = "<h3>Title</h3>".data := by
  constructor
  · intro rest hrest
    have hnl : ('\n' : Char) ∉ "### ".data ++ rest := by
      simp only [List.mem_append, not_or]
      exact ⟨by decide, hrest⟩
    have hnl3 : ('\n' : Char) ∉ "<h3>".data ++ rest ++ "</h3>".data := by
      simp only [List.mem_append, not_or]
      exact ⟨⟨by decide, hrest⟩, by decide⟩
    have e3 : mapLines h3Line ("### ".data ++ rest) =
        "<h3>".data ++ rest ++ "</h3>".data := by
      rw [mapLines, splitNl_no_nl _ hnl]
      have hdrop : List.drop 4 ("### ".data ++ rest) = rest :=
        List.drop_left "### ".data rest
      have hpre : ("### ".data.isPrefixOf ("### ".data ++ rest)) = true := by
        rw [List.isPrefixOf_iff_prefix]
        exact List.prefix_append _ _
      simp only [List.map_cons, List.map_nil, h3Line, hpre, if_true, hdrop,
        joinLines]
    have e2 : mapLines h2Line ("<h3>".data ++ rest ++ "</h3>".data) =
        "<h3>".data ++ rest ++ "</h3>".data := by
      rw [mapLines, splitNl_no_nl _ hnl3]
      have h2 : h2Line ("<h3>".data ++ rest ++ "</h3>".data) =
          "<h3>".data ++ rest ++ "</h3>".data := by
        unfold h2Line
        rw [if_neg (by simp [List.isPrefixOf])]
      simp only [List.map_cons, List.map_nil, h2, joinLines]
    have e1 : mapLines h1Line ("<h3>".data ++ rest ++ "</h3>".data) =
        "<h3>".data ++ rest ++ "</h3>".data := by
      rw [mapLines, splitNl_no_nl _ hnl3]
      have h1 : h1Line ("<h3>".data ++ rest ++ "</h3>".data) =
          "<h3>".data ++ rest ++ "</h3>".data := by
        unfold h1Line
        rw [if_neg (by simp [List.isPrefixOf])]
      simp only [List.map_cons, List.map_nil, h1, joinLines]
    unfold headingStage
    rw [e3, e2, e1]
  · decide

/-- C7 witness at the line `### Title`. -/
theorem c7_witness :
    headingStage ("### ".data ++ "Title".data) =
      "<h3>".data ++ "Title".data ++ "</h3>".data :=
  c7_heading_precedence.1 "Title".data (by decide)

/-!  ## Fence round-trip (C1) -/

/-- C1 counterexample.  The fence content is trimmed before escaping: the
input fence holds ` x ` (escaping it is the identity), yet the rendered
output holds `x`, so the content is not reproduced byte-for-byte after
HTML-escaping. -/
theorem c1_counterexample :
    markdownToHtmlCore "``` x ```".data = "<pre><code>x</code></pre>".data ∧
    escapeHtml " x ".data = " x ".data ∧
    ¬markdownToHtmlCore "``` x ```".data =
      "<pre><code> x </code></pre>".data := by
  decide

/-!  ## Sorting lemmas (C6, C10) -/

/-- Inserting permutes with consing. -/
theorem insertPost_perm (p : PostMeta) (l : List PostMeta) :
    (insertPost p l).Perm (p :: l) := by
  induction l with
  | nil => exact .refl _
  | cons q qs ih =>
    unfold insertPost
    split
    · exact .refl _
    · exact (ih.cons q).trans (List.Perm.swap p q qs)

/-- Sorting permutes the registry. -/
theorem jsSortPosts_perm (l : List PostMeta) : (jsSortPosts l).Perm l := by
  induction l with
  | nil => exact .refl _
  | cons p ps ih =>
    exact (insertPost_perm p (jsSortPosts ps)).trans (ih.cons p)

/-- Inserting into a descending list keeps it descending. -/
theorem insertPost_pairwise (p : PostMeta) (l : List PostMeta)
    (h : l.Pairwise (fun a b => dateValue b ≤ dateValue a)) :
    (insertPost p l).Pairwise (fun a b => dateValue b ≤ dateValue a) := by
  induction l with
  | nil => simp [insertPost]
  | cons q qs ih =>
    rw [List.pairwise_cons] at h
    unfold insertPost
    split
    · rename_i hap
      rw [List.pairwise_cons]
      refine ⟨?_, List.pairwise_cons.mpr h⟩
      intro x hx
      rcases List.mem_cons.mp hx with hx | hx
      · subst hx; exact hap
      · exact le_trans (h.1 x hx) hap
    · rename_i hap
      rw [List.pairwise_cons]
      refine ⟨?_, ih h.2⟩
      intro x hx
      rcases List.mem_cons.mp ((insertPost_perm p qs).mem_iff.mp hx) with hx | hx
      · subst hx
        exact le_of_lt (lt_of_not_le hap)
      · exact h.1 x hx

/-- The sorted registry is in descending date order. -/
theorem jsSortPosts_sorted (l : List PostMeta) :
    (jsSortPosts l).Pairwise (fun a b => dateValue b ≤ dateValue a) := by
  induction l with
  | nil => simp [jsSortPosts]
  | cons p ps ih => exact insertPost_pairwise p (jsSortPosts ps) ih

/-- C6.  Whenever the list view is built, it displays a permutation of the
registry sorted by date descending; in particular, with posts dated
2025-08-27 and 2025-08-01 (in either original order) the 2025-08-27 entry
comes first. -/
theorem c6_list_sorted :
    (∀ ps : List PostMeta,
      ((loadBlogPosts ps).2).Perm ps ∧
      ((loadBlogPosts ps).2).Pairwise (fun a b => dateValue b ≤ dateValue a)) ∧
    (loadBlogPosts [postAug01, postAug27]).2 = [postAug27, postAug01] ∧
    (loadBlogPosts [postAug27, postAug01]).2 = [postAug27, postAug01] := by
  refine ⟨fun ps => ⟨jsSortPosts_perm ps, jsSortPosts_sorted ps⟩, ?_, ?_⟩ <;>
    decide

/-- C10.  `loadBlogPosts` sorts the registry array itself (the in-place
`Array.prototype.sort` call): after the call the registry equals its sorted
permutation — same entries, descending date order — and for a registry that
was not already in that order the stored list really changes. -/
theorem c10_registry_mutated :
    (∀ ps : List PostMeta,
      (loadBlogPosts ps).1 = jsSortPosts ps ∧
      ((loadBlogPosts ps).1).Perm ps ∧
      ((loadBlogPosts ps).1).Pairwise (fun a b => dateValue b ≤ dateValue a)) ∧
    ¬(loadBlogPosts [postAug01, postAug27]).1 = [postAug01, postAug27] := by
  refine ⟨fun ps => ⟨rfl, jsSortPosts_perm ps, jsSortPosts_sorted ps⟩, ?_⟩
  decide

/-!  ## The fence round-trip, universally in the fence content (C1) -/

/-- Extraction of the empty remainder. -/
theorem extractGo_nil (fuel i : Nat) : extractGo fuel i [] = ([], []) := by
  cases fuel <;> rfl

/-- In a backtick-free span followed by a closing fence, the non-greedy
search finds exactly the span. -/
theorem findTriple_close (s : Str) (h : btick ∉ s) :
    findTriple (s ++ btick :: btick :: btick :: []) = some (s, []) := by
  induction s with
  | nil => decide
  | cons c s ih =>
    simp only [List.mem_cons, not_or] at h
    simp only [List.cons_append, findTriple]
    rw [if_neg (by
      simp only [Bool.and_eq_true, not_and]
      intro hc
      exact absurd (beq_iff_eq.mp hc).symm h.1)]
    simp only [List.append_eq]
    rw [ih h.2]
    rfl

/-- A document that is one fence around a backtick-free span extracts to the
first placeholder and the escaped block. -/
theorem extractGo_fence (fuel : Nat) (s : Str) (hf : 0 < fuel)
    (h : btick ∉ s) :
    extractGo fuel 0
        (btick :: btick :: btick :: (s ++ btick :: btick :: btick :: [])) =
      (codePlaceholder 0, [mkBlock s]) := by
  cases fuel with
  | zero => exact absurd hf (by simp)
  | succ fuel =>
    simp only [extractGo]
    rw [if_pos (by
      simp only [Bool.and_eq_true]
      exact ⟨beq_iff_eq.mpr rfl, by simp [List.isPrefixOf]⟩)]
    have hdrop : (btick :: btick :: (s ++ btick :: btick :: btick :: [])).drop 2
        = s ++ btick :: btick :: btick :: [] := rfl
    rw [hdrop, findTriple_close s h]
    simp only [extractGo_nil, List.append_nil]

/-- Advancing `noLiOcc` over a head that cannot start the marker. -/
theorem noLiOcc_cons_of_not (c : Char) (cs : Str)
    (h : ("<li>".data.isPrefixOf (c :: cs)) = false) :
    noLiOcc (c :: cs) = noLiOcc cs := by
  simp [noLiOcc, h]

/-- The marker test fails on a head other than an opening bracket. -/
theorem liPrefix_false_head (c : Char) (cs : Str) (h : ¬c = '<') :
    ("<li>".data.isPrefixOf (c :: cs)) = false := by
  rw [show ("<li>".data : Str) = '<' :: "li>".data from by decide]
  simp only [List.isPrefixOf]
  rw [beq_eq_false_iff_ne.mpr (fun he => h he.symm)]
  rfl

/-- The marker test fails when the second character is not `l`. -/
theorem liPrefix_false_second (c : Char) (cs : Str) (h : ¬c = 'l') :
    ("<li>".data.isPrefixOf ('<' :: c :: cs)) = false := by
  rw [show ("<li>".data : Str) = '<' :: 'l' :: "i>".data from by decide]
  simp only [List.isPrefixOf]
  rw [beq_eq_false_iff_ne.mpr (fun he : ('l' : Char) = c => h he.symm)]
  simp

/-- Characters that cannot open the marker advance `noLiOcc` over an
appended span. -/
theorem noLiOcc_append_of_no_lt (a r : Str) (h : ∀ c ∈ a, ¬c = '<') :
    noLiOcc (a ++ r) = noLiOcc r := by
  induction a with
  | nil => rfl
  | cons c a ih =>
    rw [List.cons_append,
      noLiOcc_cons_of_not c _ (liPrefix_false_head c _ (h c (by simp)))]
    exact ih (fun d hd => h d (by simp [hd]))

/-- No marker occurs in a rendered code block. -/
theorem noLiOcc_mkBlock (s : Str) : noLiOcc (mkBlock s) = true := by
  unfold mkBlock
  rw [show ("<pre><code>".data : Str) =
    '<' :: 'p' :: 'r' :: 'e' :: '>' :: '<' :: 'c' :: 'o' :: 'd' :: 'e' :: '>' :: []
    from by decide]
  simp only [List.cons_append, List.nil_append]
  rw [noLiOcc_cons_of_not _ _ (liPrefix_false_second 'p' _ (by decide))]
  rw [noLiOcc_cons_of_not _ _ (liPrefix_false_head 'p' _ (by decide))]
  rw [noLiOcc_cons_of_not _ _ (liPrefix_false_head 'r' _ (by decide))]
  rw [noLiOcc_cons_of_not _ _ (liPrefix_false_head 'e' _ (by decide))]
  rw [noLiOcc_cons_of_not _ _ (liPrefix_false_head '>' _ (by decide))]
  rw [noLiOcc_cons_of_not _ _ (liPrefix_false_second 'c' _ (by decide))]
  rw [noLiOcc_cons_of_not _ _ (liPrefix_false_head 'c' _ (by decide))]
  rw [noLiOcc_cons_of_not _ _ (liPrefix_false_head 'o' _ (by decide))]
  rw [noLiOcc_cons_of_not _ _ (liPrefix_false_head 'd' _ (by decide))]
  rw [noLiOcc_cons_of_not _ _ (liPrefix_false_head 'e' _ (by decide))]
  rw [noLiOcc_cons_of_not _ _ (liPrefix_false_head '>' _ (by decide))]
  rw [noLiOcc_append_of_no_lt _ _
    (fun c hc he => escapeHtml_no_lt (jsTrim s) (he ▸ hc))]
  decide

/-- No dollar occurs in a rendered code block built from dollar-free
content. -/
theorem mkBlock_no_dollar (s : Str) (h : '$' ∉ s) : '$' ∉ mkBlock s := by
  unfold mkBlock
  simp only [List.mem_append, not_or]
  refine ⟨⟨by decide, ?_⟩, by decide⟩
  exact escapeHtml_no_dollar (jsTrim s)
    (fun hm => h (jsTrim_subset s '$' hm))

/-- C1 (amended).  For a document that is one fenced block, the rendered
output is the code-block tag holding the *trimmed* fence content,
HTML-escaped and otherwise untouched by the remaining transforms — stated
for fence contents with no backtick (so the non-greedy fence match takes the
whole span), no dollar (so the restoring `String.replace` substitutes the
block literally) — markdown syntax such as a literal `**bold**` inside the
fence therefore renders as escaped literal text. -/
theorem c1_amended_fence_roundtrip (s : Str) (hbt : btick ∉ s)
    (hd : '$' ∉ s) :
    markdownToHtmlCore ("```".data ++ s ++ "```".data) =
      "<pre><code>".data ++ escapeHtml (jsTrim s) ++ "</code></pre>".data := by
  have hshape : "```".data ++ s ++ "```".data =
      btick :: btick :: btick :: (s ++ btick :: btick :: btick :: []) := by
    rw [List.append_assoc,
      show ("```".data : Str) = btick :: btick :: btick :: [] from by decide]
    simp
  show pipelineAfterExtract (extractFences ("```".data ++ s ++ "```".data)).1
      (extractFences ("```".data ++ s ++ "```".data)).2 = _
  have hlen : 0 < ("```".data ++ s ++ "```".data).length := by
    simp
  have hex : extractFences ("```".data ++ s ++ "```".data) =
      (codePlaceholder 0, [mkBlock s]) := by
    unfold extractFences
    rw [hshape] at hlen ⊢
    exact extractGo_fence _ s hlen hbt
  rw [hex]
  have hmid : paraStage (mapLines liNumLine (mapLines liStarLine
      (codeStage (italicStage (boldStage (mapLines hrLine
        (headingStage (codePlaceholder 0)))))))) = codePlaceholder 0 := by
    decide
  unfold pipelineAfterExtract
  rw [hmid]
  have hfind : findSub (codePlaceholder 0) (codePlaceholder 0) =
      some ([], []) := by decide
  have hres : restoreGo 0 [mkBlock s] (codePlaceholder 0) = mkBlock s := by
    simp only [restoreGo]
    unfold jsReplaceFirst
    rw [hfind]
    simp only [List.nil_append, List.append_nil]
    exact substMatch_no_dollar _ _ _ _ (mkBlock_no_dollar s hd)
  rw [hres]
  unfold ulWrapStage
  rw [wrapGo_id _ _ (noLiOcc_mkBlock s)]
  rfl

/-- C1 witness: the spec's own example — a literal `**bold**` inside a fence
renders as escaped (here: unchanged) literal text inside the code block, not
as a bold element. -/
theorem c1_amended_witness :
    markdownToHtmlCore ("```".data ++ "**bold**".data ++ "```".data) =
      "<pre><code>".data ++ escapeHtml (jsTrim "**bold**".data) ++
        "</code></pre>".data :=
  c1_amended_fence_roundtrip "**bold**".data (by decide) (by decide)

/-!  ## List grouping (C8): preliminary lemmas -/

/-- A prefix test fails as soon as the heads differ. -/
theorem isPrefixOf_false_head (a b : Char) (as bs : Str) (h : ¬a = b) :
    ((a :: as).isPrefixOf (b :: bs)) = false := by
  simp [List.isPrefixOf, beq_eq_false_iff_ne.mpr h]

/-- `noDoubleStar` advances over a star-free span. -/
theorem noDoubleStar_skip (a r : Str) (h : ∀ c ∈ a, ¬c = '*') :
    noDoubleStar (a ++ r) = noDoubleStar r := by
  induction a with
  | nil => rfl
  | cons c a ih =>
    rw [List.cons_append]
    show (!(c == '*' && (a ++ r).headD ' ' == '*') && noDoubleStar (a ++ r))
      = noDoubleStar r
    rw [beq_eq_false_iff_ne.mpr (h c (by simp)), ih (fun d hd => h d (by simp [hd]))]
    simp

/-- `noItalicPair` advances over a star-free span. -/
theorem noItalicPair_skip (a r : Str) (h : ∀ c ∈ a, ¬c = '*') :
    noItalicPair (a ++ r) = noItalicPair r := by
  induction a with
  | nil => rfl
  | cons c a ih =>
    rw [List.cons_append]
    show ((if c == '*' then _ else true) && noItalicPair (a ++ r))
      = noItalicPair r
    rw [if_neg (by rw [beq_eq_false_iff_ne.mpr (h c (by simp))]; simp),
      ih (fun d hd => h d (by simp [hd]))]
    simp

/-- `takeWhile` passes an all-true span. -/
theorem takeWhile_all_append (p : Char → Bool) (a r : Str)
    (h : ∀ c ∈ a, p c = true) :
    (a ++ r).takeWhile p = a ++ r.takeWhile p := by
  induction a with
  | nil => rfl
  | cons c a ih =>
    rw [List.cons_append, List.takeWhile_cons, if_pos (h c (by simp)),
      ih (fun d hd => h d (by simp [hd])), List.cons_append]

/-- Unfolding `splitParas` at an ordinary character. -/
theorem splitParas_cons_ne (c : Char) (cs : Str) (hc : ¬c = '\n') :
    splitParas (c :: cs) = consHead c (splitParas cs) := by
  rw [splitParas.eq_def]
  split
  · rename_i heq
    cases heq
  · rename_i c2 cs2 heq
    injection heq with h1 h2
    subst h1
    subst h2
    rw [if_neg hc]

/-- Unfolding `splitParas` at a newline not followed by a newline. -/
theorem splitParas_nl_cons (d : Char) (cs2 : Str) (hd : ¬d = '\n') :
    splitParas ('\n' :: d :: cs2) = consHead '\n' (splitParas (d :: cs2)) := by
  rw [splitParas.eq_def]
  split
  · rename_i heq
    cases heq
  · rename_i c2 cs3 heq
    injection heq with h1 h2
    subst h1
    subst h2
    rw [if_pos rfl]
    split
    · rename_i x heq2
      injection heq2 with h3 _
      exact absurd h3 hd
    · rename_i heq2
      cases heq2
    · rename_i e x heq2
      injection heq2 with h3 h4
      rw [h3, h4]

/-- Splitting at the first blank line. -/
theorem splitParas_once (a b : Str) (hnn : noDoubleNl a = true)
    (hlast : a.getLast? ≠ some '\n') :
    splitParas (a ++ '\n' :: '\n' :: b) = a :: splitParas b := by
  induction a with
  | nil => rfl
  | cons c a ih =>
    rw [show noDoubleNl (c :: a) =
      (!(c == '\n' && a.headD ' ' == '\n') && noDoubleNl a) from rfl] at hnn
    simp only [Bool.and_eq_true, Bool.not_eq_true'] at hnn
    rw [List.cons_append]
    by_cases hc : c = '\n'
    · subst hc
      cases a with
      | nil => exact absurd rfl hlast
      | cons d a2 =>
        have hd : ¬d = '\n' := by
          intro he
          subst he
          simp at hnn
        have harg : splitParas (d :: (a2 ++ '\n' :: '\n' :: b)) =
            (d :: a2) :: splitParas b := by
          have hres := ih hnn.2 (by
            rwa [List.getLast?_cons_cons] at hlast)
          rwa [List.cons_append] at hres
        rw [List.cons_append, splitParas_nl_cons d _ hd, harg]
        rfl
    · have hlast2 : a.getLast? ≠ some '\n' := by
        cases a with
        | nil => simp
        | cons d a2 => rwa [List.getLast?_cons_cons] at hlast
      rw [splitParas_cons_ne c _ hc, ih hnn.2 hlast2]
      rfl

/-- Joining with a non-empty tail. -/
theorem joinLines_cons_ne (l : Str) (ls : List Str) (h : ls ≠ []) :
    joinLines (l :: ls) = l ++ '\n' :: joinLines ls := by
  cases ls with
  | nil => exact absurd rfl h
  | cons l2 ls2 => rfl

/-- Unfolding the list-document at a first item. -/
theorem listInput_cons (it : Str) (its : List Str) :
    listInput (it :: its) = bulletLine it ++ '\n' :: listInput its := by
  unfold listInput
  simp only [List.map_cons, List.cons_append]
  exact joinLines_cons_ne _ _ (by simp)

/-- The empty list-document. -/
theorem listInput_nil : listInput [] = '\n' :: "text".data := rfl

/-- Characters of the list-document. -/
theorem listInput_chars (items : List Str)
    (hok : ∀ it ∈ items, ∀ c ∈ it, c.isLower = true) :
    ∀ c ∈ listInput items,
      c = '\n' ∨ c = '*' ∨ c = ' ' ∨ c.isLower = true := by
  induction items with
  | nil =>
    rw [listInput_nil]
    decide
  | cons it its ih =>
    rw [listInput_cons]
    intro c hc
    rcases List.mem_append.mp hc with hc | hc
    · rcases List.mem_cons.mp hc with hc | hc
      · exact Or.inr (Or.inl hc)
      · rcases List.mem_cons.mp hc with hc | hc
        · exact Or.inr (Or.inr (Or.inl hc))
        · exact Or.inr (Or.inr (Or.inr (hok it (by simp) c hc)))
    · rcases List.mem_cons.mp hc with hc | hc
      · exact Or.inl hc
      · exact ih (fun x hx => hok x (by simp [hx])) c hc

/-- The list-document is backtick-free. -/
theorem listInput_no_btick (items : List Str)
    (hok : ∀ it ∈ items, ∀ c ∈ it, c.isLower = true) :
    ∀ c ∈ listInput items, ¬c = btick := by
  intro c hc he
  subst he
  rcases listInput_chars items hok _ hc with h | h | h | h
  · exact absurd h (by decide)
  · exact absurd h (by decide)
  · exact absurd h (by decide)
  · exact absurd h (by decide)

/-- Unfolding `noDoubleStar` at a cons. -/
theorem noDoubleStar_cons (c : Char) (cs : Str) :
    noDoubleStar (c :: cs) =
      (!(c == '*' && cs.headD ' ' == '*') && noDoubleStar cs) := rfl

/-- The list-document has no adjacent stars. -/
theorem listInput_noDoubleStar (items : List Str)
    (hok : ∀ it ∈ items, ∀ c ∈ it, c.isLower = true) :
    noDoubleStar (listInput items) = true := by
  induction items with
  | nil => rw [listInput_nil]; decide
  | cons it its ih =>
    rw [listInput_cons]
    show noDoubleStar (('*' :: ' ' :: it) ++ '\n' :: listInput its) = true
    rw [List.cons_append, List.cons_append, noDoubleStar_cons,
      noDoubleStar_cons]
    simp only [List.headD_cons]
    rw [show ((' ' : Char) == '*') = false from by decide]
    simp only [Bool.and_false, Bool.false_and, Bool.not_false, Bool.true_and]
    rw [noDoubleStar_skip it _ (fun c hc he => by
      subst he
      exact absurd (hok it (by simp) _ hc) (by decide))]
    rw [noDoubleStar_cons]
    rw [show (('\n' : Char) == '*') = false from by decide]
    simp only [Bool.false_and, Bool.not_false, Bool.true_and]
    exact ih (fun x hx => hok x (by simp [hx]))

/-- Unfolding `noItalicPair` at a cons. -/
theorem noItalicPair_cons (c : Char) (cs : Str) :
    noItalicPair (c :: cs) =
      ((if c == '*' then
          !((cs.drop (cs.takeWhile notStarNl).length).headD ' ' == '*')
        else true) && noItalicPair cs) := rfl

/-- In the list-document no star is closed on its own line. -/
theorem listInput_noItalicPair (items : List Str)
    (hok : ∀ it ∈ items, ∀ c ∈ it, c.isLower = true) :
    noItalicPair (listInput items) = true := by
  induction items with
  | nil => rw [listInput_nil]; decide
  | cons it its ih =>
    rw [listInput_cons]
    show noItalicPair (('*' :: ' ' :: it) ++ '\n' :: listInput its) = true
    rw [List.cons_append, List.cons_append, noItalicPair_cons]
    have hsafe : ∀ c ∈ (' ' :: it), notStarNl c = true := by
      intro c hc
      rcases List.mem_cons.mp hc with hc | hc
      · subst hc; decide
      · have hlow := hok it (by simp) c hc
        unfold notStarNl
        have h1 : (c == '*') = false :=
          beq_eq_false_iff_ne.mpr (fun he => by
            subst he; exact absurd hlow (by decide))
        have h2 : (c == '\n') = false :=
          beq_eq_false_iff_ne.mpr (fun he => by
            subst he; exact absurd hlow (by decide))
        rw [h1, h2]
        rfl
    have htake : ((' ' :: it) ++ '\n' :: listInput its).takeWhile notStarNl
        = ' ' :: it := by
      rw [takeWhile_all_append _ _ _ hsafe]
      rw [List.takeWhile_cons, if_neg (by decide)]
      simp
    have hdrop : ((' ' :: it) ++ '\n' :: listInput its).drop
        ((' ' :: it).length) = '\n' :: listInput its :=
      List.drop_left _ _
    rw [if_pos (by decide)]
    show (!((((' ' :: it) ++ '\n' :: listInput its).drop
      ((((' ' :: it) ++ '\n' :: listInput its).takeWhile notStarNl).length)).headD ' '
        == '*') && noItalicPair ((' ' :: it) ++ '\n' :: listInput its)) = true
    rw [htake, hdrop]
    simp only [List.headD_cons]
    rw [show (('\n' : Char) == '*') = false from by decide]
    rw [noItalicPair_skip (' ' :: it) _ (fun c hc he => by
      subst he
      rcases List.mem_cons.mp hc with hc | hc
      · exact absurd hc (by decide)
      · exact absurd (hok it (by simp) _ hc) (by decide))]
    rw [noItalicPair_cons, if_neg (by decide)]
    rw [ih (fun x hx => hok x (by simp [hx]))]
    rfl

/-- A line whose head is not a hash is not a level-3 heading. -/
theorem h3Line_head (l : Str) (h : ¬l.headD ' ' = '#') : h3Line l = l := by
  cases l with
  | nil => decide
  | cons c cs =>
    have hp : ("### ".data.isPrefixOf (c :: cs)) = false := by
      rw [show ("### ".data : Str) = '#' :: "## ".data from by decide]
      exact isPrefixOf_false_head _ _ _ _ (fun he => h (by simp [he.symm]))
    simp [h3Line, hp]

/-- A line whose head is not a hash is not a level-2 heading. -/
theorem h2Line_head (l : Str) (h : ¬l.headD ' ' = '#') : h2Line l = l := by
  cases l with
  | nil => decide
  | cons c cs =>
    have hp : ("## ".data.isPrefixOf (c :: cs)) = false := by
      rw [show ("## ".data : Str) = '#' :: "# ".data from by decide]
      exact isPrefixOf_false_head _ _ _ _ (fun he => h (by simp [he.symm]))
    simp [h2Line, hp]

/-- A line whose head is not a hash is not a level-1 heading. -/
theorem h1Line_head (l : Str) (h : ¬l.headD ' ' = '#') : h1Line l = l := by
  cases l with
  | nil => decide
  | cons c cs =>
    have hp : ("# ".data.isPrefixOf (c :: cs)) = false := by
      rw [show ("# ".data : Str) = '#' :: " ".data from by decide]
      exact isPrefixOf_false_head _ _ _ _ (fun he => h (by simp [he.symm]))
    simp [h1Line, hp]

/-- A line that is not exactly three hyphens is not a rule. -/
theorem hrLine_ne (l : Str) (h : ¬l = "---".data) : hrLine l = l := by
  have hb : (l == "---".data) = false := beq_eq_false_iff_ne.mpr h
  simp [hrLine, hb]

/-- A line whose head is not a digit is not a numbered item. -/
theorem liNumLine_head (l : Str) (h : (l.headD ' ').isDigit = false) :
    liNumLine l = l := by
  cases l with
  | nil => decide
  | cons c cs =>
    have hd : c.isDigit = false := by simpa using h
    simp [liNumLine, List.takeWhile_cons, hd]

/-- A line whose head is not a star is not a bulleted item. -/
theorem liStarLine_head (l : Str) (h : ¬l.headD ' ' = '*') :
    liStarLine l = l := by
  cases l with
  | nil => decide
  | cons c cs =>
    have hp : ("* ".data.isPrefixOf (c :: cs)) = false := by
      rw [show ("* ".data : Str) = '*' :: " ".data from by decide]
      exact isPrefixOf_false_head _ _ _ _ (fun he => h (by simp [he.symm]))
    simp [liStarLine, hp]

/-- The bulleted-item rule fires on a bulleted source line. -/
theorem liStarLine_fires (it : Str) (hne : it ≠ []) :
    liStarLine (bulletLine it) = mkLi it := by
  have hp : ("* ".data.isPrefixOf ('*' :: ' ' :: it)) = true := by
    rw [show ("* ".data : Str) = '*' :: ' ' :: [] from by decide]
    simp [List.isPrefixOf]
  have hie : it.isEmpty = false := by
    cases it with
    | nil => exact absurd rfl hne
    | cons _ _ => rfl
  show liStarLine ('*' :: ' ' :: it) = mkLi it
  simp [liStarLine, hp, hie, mkLi]

/-- The lines of the list-document are newline-free. -/
theorem listInput_lines_nonl (items : List Str)
    (hok : ∀ it ∈ items, ∀ c ∈ it, c.isLower = true) :
    ∀ l ∈ items.map bulletLine ++ [[], "text".data], '\n' ∉ l := by
  intro l hl
  rcases List.mem_append.mp hl with hl | hl
  · rcases List.mem_map.mp hl with ⟨it, hit, rfl⟩
    intro hc
    rcases List.mem_cons.mp hc with hc | hc
    · exact absurd hc (by decide)
    · rcases List.mem_cons.mp hc with hc | hc
      · exact absurd hc (by decide)
      · exact absurd (hok it hit _ hc) (by decide)
  · rcases List.mem_cons.mp hl with hl | hl
    · subst hl; simp
    · rcases List.mem_cons.mp hl with hl | hl
      · subst hl; decide
      · exact absurd hl (List.not_mem_nil l)

/-- Splitting the list-document recovers its lines. -/
theorem splitNl_listInput (items : List Str)
    (hok : ∀ it ∈ items, ∀ c ∈ it, c.isLower = true) :
    splitNl (listInput items) =
      items.map bulletLine ++ [[], "text".data] :=
  splitNl_joinLines _ (listInput_lines_nonl items hok) (by simp)

/-- No line of the list-document starts with a hash or is a rule. -/
theorem listInput_lines_inert (items : List Str) :
    ∀ l ∈ items.map bulletLine ++ [[], "text".data],
      ¬l.headD ' ' = '#' ∧ ¬l = "---".data := by
  intro l hl
  rcases List.mem_append.mp hl with hl | hl
  · rcases List.mem_map.mp hl with ⟨it, _, rfl⟩
    refine ⟨by simp [bulletLine], ?_⟩
    intro he
    rw [show ("---".data : Str) = '-' :: "--".data from by decide] at he
    injection he with h1 _
    exact absurd h1 (by decide)
  · rcases List.mem_cons.mp hl with hl | hl
    · subst hl; exact ⟨by simp, by simp⟩
    · rcases List.mem_cons.mp hl with hl | hl
      · subst hl; exact ⟨by decide, by decide⟩
      · exact absurd hl (List.not_mem_nil l)

/-- The heading and rule passes leave the list-document unchanged. -/
theorem headingStage_listInput (items : List Str)
    (hok : ∀ it ∈ items, ∀ c ∈ it, c.isLower = true) :
    mapLines hrLine (headingStage (listInput items)) = listInput items := by
  have hsp := splitNl_listInput items hok
  have hfix : ∀ f : Str → Str,
      (∀ l ∈ items.map bulletLine ++ [[], "text".data], f l = l) →
      mapLines f (listInput items) = listInput items := by
    intro f hf
    exact mapLines_id f _ (fun l hl => hf l (hsp ▸ hl))
  unfold headingStage
  rw [hfix h3Line (fun l hl => h3Line_head l (listInput_lines_inert items l hl).1),
    hfix h2Line (fun l hl => h2Line_head l (listInput_lines_inert items l hl).1),
    hfix h1Line (fun l hl => h1Line_head l (listInput_lines_inert items l hl).1),
    hfix hrLine (fun l hl => hrLine_ne l (listInput_lines_inert items l hl).2)]

/-- The rendered item in cons form. -/
theorem mkLi_shape (it : Str) :
    mkLi it = '<' :: 'l' :: 'i' :: '>' :: (it ++ "</li>".data) := by
  unfold mkLi
  rw [show ("<li>".data : Str) = '<' :: 'l' :: 'i' :: '>' :: [] from by decide]
  simp

/-- Rendered items are newline-free. -/
theorem mkLi_nonl (it : Str) (h : ∀ c ∈ it, c.isLower = true) :
    '\n' ∉ mkLi it := by
  unfold mkLi
  simp only [List.mem_append, not_or]
  exact ⟨⟨by decide, fun hc => absurd (h _ hc) (by decide)⟩, by decide⟩

/-- The bulleted-list pass turns the list-document's item lines into rendered
items and leaves the rest alone. -/
theorem liStar_stage (items : List Str)
    (hok : ∀ it ∈ items, ∀ c ∈ it, c.isLower = true)
    (hne : ∀ it ∈ items, it ≠ []) :
    mapLines liStarLine (listInput items) =
      joinLines (items.map mkLi ++ [[], "text".data]) := by
  unfold mapLines
  rw [splitNl_listInput items hok]
  congr 1
  rw [List.map_append,
    show ([[], "text".data] : List Str).map liStarLine = [[], "text".data]
      from by decide]
  congr 1
  calc (items.map bulletLine).map liStarLine
      = items.map (liStarLine ∘ bulletLine) := by rw [List.map_map]
    _ = items.map mkLi :=
      List.map_congr_left (fun it hit => liStarLine_fires it (hne it hit))

/-- The lines after the bulleted-list pass are newline-free. -/
theorem lines2_nonl (items : List Str)
    (hok : ∀ it ∈ items, ∀ c ∈ it, c.isLower = true) :
    ∀ l ∈ items.map mkLi ++ [[], "text".data], '\n' ∉ l := by
  intro l hl
  rcases List.mem_append.mp hl with hl | hl
  · rcases List.mem_map.mp hl with ⟨it, hit, rfl⟩
    exact mkLi_nonl it (hok it hit)
  · rcases List.mem_cons.mp hl with hl | hl
    · subst hl; simp
    · rcases List.mem_cons.mp hl with hl | hl
      · subst hl; decide
      · exact absurd hl (List.not_mem_nil l)

/-- The numbered-list pass leaves the converted document unchanged. -/
theorem liNum_stage (items : List Str)
    (hok : ∀ it ∈ items, ∀ c ∈ it, c.isLower = true) :
    mapLines liNumLine (joinLines (items.map mkLi ++ [[], "text".data])) =
      joinLines (items.map mkLi ++ [[], "text".data]) := by
  apply mapLines_id
  intro l hl
  rw [splitNl_joinLines _ (lines2_nonl items hok) (by simp)] at hl
  rcases List.mem_append.mp hl with hl | hl
  · rcases List.mem_map.mp hl with ⟨it, _, rfl⟩
    refine liNumLine_head _ ?_
    rw [mkLi_shape]
    rfl
  · rcases List.mem_cons.mp hl with hl | hl
    · subst hl; decide
    · rcases List.mem_cons.mp hl with hl | hl
      · subst hl; decide
      · exact absurd hl (List.not_mem_nil l)

/-- Joining the lines with the trailing blank line and paragraph. -/
theorem joinLines_append_blank (A : List Str) (b : Str) (hA : A ≠ []) :
    joinLines (A ++ [[], b]) = joinLines A ++ '\n' :: '\n' :: b := by
  induction A with
  | nil => exact absurd rfl hA
  | cons x A ih =>
    cases A with
    | nil => rfl
    | cons y A2 =>
      rw [List.cons_append, joinLines_cons_ne _ _ (by simp),
        joinLines_cons_ne _ _ (by simp), ih (by simp)]
      simp

/-- Unfolding `noDoubleNl` at a cons. -/
theorem noDoubleNl_cons (c : Char) (cs : Str) :
    noDoubleNl (c :: cs) =
      (!(c == '\n' && cs.headD ' ' == '\n') && noDoubleNl cs) := rfl

/-- `noDoubleNl` advances over a newline-free span. -/
theorem noDoubleNl_skip (a r : Str) (h : ∀ c ∈ a, ¬c = '\n') :
    noDoubleNl (a ++ r) = noDoubleNl r := by
  induction a with
  | nil => rfl
  | cons c a ih =>
    rw [List.cons_append, noDoubleNl_cons,
      beq_eq_false_iff_ne.mpr (h c (by simp)),
      ih (fun d hd => h d (by simp [hd]))]
    simp

/-- A newline-free span has no blank line. -/
theorem noDoubleNl_of_no_nl (a : Str) (h : ∀ c ∈ a, ¬c = '\n') :
    noDoubleNl a = true := by
  have hs := noDoubleNl_skip a [] h
  simpa using hs

/-- The joined rendered items start with the item tag. -/
theorem joinLines_mkLi_shape (items : List Str) (hne : items ≠ []) :
    ∃ X, joinLines (items.map mkLi) = '<' :: 'l' :: 'i' :: '>' :: X := by
  cases items with
  | nil => exact absurd rfl hne
  | cons it its =>
    cases its with
    | nil => exact ⟨it ++ "</li>".data, by simp [joinLines, mkLi_shape]⟩
    | cons jt jts =>
      refine ⟨(it ++ "</li>".data) ++ '\n' ::
        joinLines ((jt :: jts).map mkLi), ?_⟩
      rw [List.map_cons, joinLines_cons_ne _ _ (by simp), mkLi_shape]
      simp

/-- The joined rendered items contain no blank line. -/
theorem joinLines_mkLi_noDoubleNl (items : List Str)
    (hok : ∀ it ∈ items, ∀ c ∈ it, c.isLower = true) :
    noDoubleNl (joinLines (items.map mkLi)) = true := by
  induction items with
  | nil => rfl
  | cons it its ih =>
    cases its with
    | nil =>
      exact noDoubleNl_of_no_nl _
        (fun c hc he => mkLi_nonl it (hok it (by simp)) (he ▸ hc))
    | cons jt jts =>
      rw [List.map_cons, joinLines_cons_ne _ _ (by simp)]
      rw [noDoubleNl_skip _ _
        (fun c hc he => mkLi_nonl it (hok it (by simp)) (he ▸ hc))]
      rw [noDoubleNl_cons]
      obtain ⟨X, hX⟩ := joinLines_mkLi_shape (jt :: jts) (by simp)
      have hhead : (joinLines ((jt :: jts).map mkLi)).headD ' ' = '<' := by
        rw [hX]; rfl
      rw [hhead, show (('<' : Char) == '\n') = false from by decide]
      rw [ih (fun x hx => hok x (by simp [hx]))]
      simp

/-- The joined rendered items do not end with a newline. -/
theorem joinLines_mkLi_last (items : List Str) (hne : items ≠ []) :
    (joinLines (items.map mkLi)).getLast? ≠ some '\n' := by
  induction items with
  | nil => exact absurd rfl hne
  | cons it its ih =>
    cases its with
    | nil =>
      show (joinLines [mkLi it]).getLast? ≠ some '\n'
      have hjl : joinLines [mkLi it] = ("<li>".data ++ it) ++ "</li>".data := by
        simp [joinLines, mkLi]
      rw [hjl, List.getLast?_append,
        show ("</li>".data : Str).getLast? = some '>' from by decide]
      exact fun he => absurd (Option.some.inj he) (by decide)
    | cons jt jts =>
      rw [List.map_cons, joinLines_cons_ne _ _ (by simp),
        List.getLast?_append]
      have hih := ih (by simp)
      obtain ⟨X, hX⟩ := joinLines_mkLi_shape (jt :: jts) (by simp)
      obtain ⟨v, hv, hvne⟩ : ∃ v,
          (joinLines ((jt :: jts).map mkLi)).getLast? = some v ∧
            ¬v = '\n' := by
        cases hcase : (joinLines ((jt :: jts).map mkLi)).getLast? with
        | none =>
          rw [hX] at hcase
          simp at hcase
        | some v =>
          exact ⟨v, rfl, fun he => hih (by rw [hcase, he])⟩
      rw [show ('\n' :: joinLines ((jt :: jts).map mkLi) : Str)
          = ['\n'] ++ joinLines ((jt :: jts).map mkLi) from rfl,
        List.getLast?_append, hv]
      exact fun he => hvne (Option.some.inj he)

/-- The joined rendered items pass the paragraph block test. -/
theorem paraStarts_mkLi (items : List Str) (hne : items ≠ []) :
    paraStarts (joinLines (items.map mkLi)) = true := by
  obtain ⟨X, hX⟩ := joinLines_mkLi_shape items hne
  rw [hX]
  rfl

/-- The paragraph pass on the converted document: the item block is kept and
the trailing text becomes a paragraph. -/
theorem paraStage_lines2 (items : List Str)
    (hok : ∀ it ∈ items, ∀ c ∈ it, c.isLower = true) (hne : items ≠ []) :
    paraStage (joinLines (items.map mkLi ++ [[], "text".data])) =
      joinLines (items.map mkLi) ++ '\n' :: "<p>text</p>".data := by
  unfold paraStage
  rw [joinLines_append_blank _ _ (by simp [hne])]
  rw [splitParas_once _ _ (joinLines_mkLi_noDoubleNl items hok)
    (joinLines_mkLi_last items hne)]
  rw [show splitParas "text".data = ["text".data] from by decide]
  simp only [List.map_cons, List.map_nil]
  rw [show paraMap "text".data = "<p>text</p>".data from by decide]
  have hJ : paraMap (joinLines (items.map mkLi)) =
      joinLines (items.map mkLi) := by
    unfold paraMap
    rw [paraStarts_mkLi items hne]
    simp
  rw [hJ, joinLines_cons_ne _ _ (by simp)]
  rfl

/-- The iteration body stops at a newline. -/
theorem lineClose_nl (fuel : Nat) (X : Str) :
    lineCloseSplit fuel ('\n' :: X) = none := by
  cases fuel with
  | zero => rfl
  | succ fuel => simp [lineCloseSplit]

/-- Over a marker-free, newline-free span followed by a closing tag and a
newline, the iteration body consumes exactly through the closing tag. -/
theorem lineClose_main (a X : Str) (fuel : Nat) (hfuel : a.length < fuel)
    (h : ∀ c ∈ a, ¬c = '<' ∧ ¬c = '\n') :
    lineCloseSplit fuel (a ++ '<' :: '/' :: 'l' :: 'i' :: '>' :: '\n' :: X) =
      some (a ++ ['<', '/', 'l', 'i', '>'], '\n' :: X) := by
  induction a generalizing fuel with
  | nil =>
    cases fuel with
    | zero => exact absurd hfuel (by simp)
    | succ fuel =>
      simp only [List.nil_append]
      simp only [lineCloseSplit]
      rw [if_neg (by decide)]
      rw [if_pos (by simp [List.isPrefixOf])]
      rw [show (('<' :: '/' :: 'l' :: 'i' :: '>' :: '\n' :: X : Str)).drop 5
        = '\n' :: X from rfl]
      rw [lineClose_nl]
  | cons c a ih =>
    cases fuel with
    | zero => exact absurd hfuel (by simp)
    | succ fuel =>
      have hc := h c (by simp)
      simp only [List.cons_append, lineCloseSplit]
      rw [if_neg (by simp [beq_eq_false_iff_ne.mpr hc.2])]
      rw [if_neg (by
        rw [isPrefixOf_false_head _ _ _ _ (fun he => hc.1 he.symm)]
        simp)]
      simp only [List.append_eq]
      rw [ih fuel (by
        simp only [List.length_cons] at hfuel
        omega) (fun d hd => h d (by simp [hd]))]
      rfl

/-- One full run of the wrapping pattern over the joined rendered items, up
to a continuation that cannot start another iteration: the match consumes the
items and the trailing newline. -/
theorem runGo_items (items : List Str) (X : Str) (fuel : Nat)
    (hne : items ≠ [])
    (hok : ∀ it ∈ items, ∀ c ∈ it, c.isLower = true)
    (hfuel : items.length ≤ fuel)
    (hX : ("<li>".data.isPrefixOf X) = false) :
    runGo fuel (joinLines (items.map mkLi) ++ '\n' :: X) =
      some (joinLines (items.map mkLi) ++ ['\n'], X) := by
  induction items generalizing fuel with
  | nil => exact absurd rfl hne
  | cons it its ih =>
    have hit : ∀ c ∈ it, c.isLower = true := hok it (by simp)
    have hsafe : ∀ c ∈ it, ¬c = '<' ∧ ¬c = '\n' := by
      intro c hc
      exact ⟨fun he => absurd (hit c hc) (by rw [he]; decide),
        fun he => absurd (hit c hc) (by rw [he]; decide)⟩
    cases its with
    | nil =>
      cases fuel with
      | zero => exact absurd hfuel (by simp)
      | succ fuel =>
        have hJ : joinLines ([it].map mkLi) = mkLi it := by
          simp [joinLines]
        rw [hJ]
        have hsh : mkLi it ++ '\n' :: X =
            '<' :: 'l' :: 'i' :: '>' ::
              (it ++ '<' :: '/' :: 'l' :: 'i' :: '>' :: '\n' :: X) := by
          unfold mkLi
          rw [show ("<li>".data : Str) = ['<', 'l', 'i', '>'] from by decide,
            show ("</li>".data : Str) = ['<', '/', 'l', 'i', '>'] from by decide]
          simp
        rw [hsh]
        simp only [runGo]
        rw [if_pos (by simp [List.isPrefixOf])]
        rw [show (('<' :: 'l' :: 'i' :: '>' ::
          (it ++ '<' :: '/' :: 'l' :: 'i' :: '>' :: '\n' :: X) : Str)).drop 4
          = it ++ '<' :: '/' :: 'l' :: 'i' :: '>' :: '\n' :: X from rfl]
        rw [lineClose_main it X _ (by
          simp only [List.length_cons, List.length_append]
          omega) hsafe]
        dsimp only
        rw [if_pos rfl]
        rw [runGo_none fuel X (by simp [hX])]
        dsimp only
        simp [mkLi, show ("<li>".data : Str) = ['<', 'l', 'i', '>'] from by decide,
          show ("</li>".data : Str) = ['<', '/', 'l', 'i', '>'] from by decide]
    | cons jt jts =>
      cases fuel with
      | zero => exact absurd hfuel (by simp)
      | succ fuel =>
        rw [List.map_cons, joinLines_cons_ne _ _ (by simp)]
        have hsh : (mkLi it ++ '\n' :: joinLines ((jt :: jts).map mkLi))
            ++ '\n' :: X =
            '<' :: 'l' :: 'i' :: '>' ::
              (it ++ '<' :: '/' :: 'l' :: 'i' :: '>' :: '\n' ::
                (joinLines ((jt :: jts).map mkLi) ++ '\n' :: X)) := by
          unfold mkLi
          rw [show ("<li>".data : Str) = ['<', 'l', 'i', '>'] from by decide,
            show ("</li>".data : Str) = ['<', '/', 'l', 'i', '>'] from by decide]
          simp
        rw [hsh]
        simp only [runGo]
        rw [if_pos (by simp [List.isPrefixOf])]
        rw [show (('<' :: 'l' :: 'i' :: '>' ::
          (it ++ '<' :: '/' :: 'l' :: 'i' :: '>' :: '\n' ::
            (joinLines ((jt :: jts).map mkLi) ++ '\n' :: X)) : Str)).drop 4
          = it ++ '<' :: '/' :: 'l' :: 'i' :: '>' :: '\n' ::
            (joinLines ((jt :: jts).map mkLi) ++ '\n' :: X) from rfl]
        rw [lineClose_main it _ _ (by
          simp only [List.length_cons, List.length_append]
          omega) hsafe]
        dsimp only
        rw [if_pos rfl]
        rw [ih fuel (by simp) (fun x hx => hok x (by simp [hx])) (by
          simp only [List.length_cons] at hfuel ⊢
          omega) ]
        dsimp only
        simp [mkLi, show ("<li>".data : Str) = ['<', 'l', 'i', '>'] from by decide,
          show ("</li>".data : Str) = ['<', '/', 'l', 'i', '>'] from by decide]

/-- The number of items is bounded by the joined length (fuel bound). -/
theorem items_len_le (items : List Str) :
    items.length ≤ (joinLines (items.map mkLi)).length := by
  induction items with
  | nil => simp [joinLines]
  | cons it its ih =>
    cases its with
    | nil =>
      show 1 ≤ (joinLines [mkLi it]).length
      simp [joinLines, mkLi]
    | cons jt jts =>
      rw [List.map_cons, joinLines_cons_ne _ _ (by simp)]
      simp only [List.length_cons, List.length_append] at ih ⊢
      omega

/-- The wrapping pass puts the whole run of rendered items, trailing
newline included, in a single container and leaves the paragraph alone. -/
theorem ulWrap_final (items : List Str)
    (hok : ∀ it ∈ items, ∀ c ∈ it, c.isLower = true) (hne : items ≠ []) :
    wrapGo (joinLines (items.map mkLi) ++ '\n' :: "<p>text</p>".data).length
        (joinLines (items.map mkLi) ++ '\n' :: "<p>text</p>".data) =
      "<ul>".data ++ joinLines (items.map mkLi) ++
        "\n</ul><p>text</p>".data := by
  obtain ⟨Xj, hXj⟩ := joinLines_mkLi_shape items hne
  have hE : joinLines (items.map mkLi) ++ '\n' :: "<p>text</p>".data =
      '<' :: ('l' :: 'i' :: '>' :: (Xj ++ '\n' :: "<p>text</p>".data)) := by
    rw [hXj]
    simp
  have hrun : runGo
      (('l' :: 'i' :: '>' :: (Xj ++ '\n' :: "<p>text</p>".data) : Str).length + 1)
      ('<' :: ('l' :: 'i' :: '>' :: (Xj ++ '\n' :: "<p>text</p>".data))) =
      some (joinLines (items.map mkLi) ++ ['\n'], "<p>text</p>".data) := by
    rw [← hE]
    refine runGo_items items _ _ hne hok ?_ (by decide)
    have h1 := items_len_le items
    have h2 : (joinLines (items.map mkLi)).length = Xj.length + 4 := by
      rw [hXj]
      simp
    simp only [List.length_cons, List.length_append]
    omega
  rw [hE, List.length_cons]
  simp only [wrapGo]
  rw [hrun]
  dsimp only
  rw [wrapGo_id _ _ (by decide)]
  simp

/-- C8.  A maximal run of consecutive list-item lines — bulleted, one item
per line, followed by a blank line and a trailing paragraph — is wrapped in
exactly one unordered-list container, with the paragraph rendered separately
(stated for any number of non-empty lowercase items); numbered and bulleted
lines collapse to the same unordered output, and the concrete instance
`* a\n* b\n\ntext` renders as one list with two items followed by the
paragraph. -/
theorem c8_list_grouping :
    (∀ items : List Str, items ≠ [] →
      (∀ it ∈ items, it ≠ [] ∧ ∀ c ∈ it, c.isLower = true) →
      markdownToHtmlCore (listInput items) =
        "<ul>".data ++ joinLines (items.map mkLi) ++
          "\n</ul><p>text</p>".data) ∧
    markdownToHtmlCore "* a\n* b\n\ntext".data =
      "<ul><li>a</li>\n<li>b</li>\n</ul><p>text</p>".data ∧
    markdownToHtmlCore "1. a\n2. b\n\ntext".data =
      markdownToHtmlCore "* a\n* b\n\ntext".data := by
  refine ⟨?_, by decide, by decide⟩
  intro items hne hprops
  have hok : ∀ it ∈ items, ∀ c ∈ it, c.isLower = true :=
    fun it hit => (hprops it hit).2
  have hne2 : ∀ it ∈ items, it ≠ [] := fun it hit => (hprops it hit).1
  show pipelineAfterExtract (extractFences (listInput items)).1
      (extractFences (listInput items)).2 = _
  have hfe : extractFences (listInput items) = (listInput items, []) := by
    unfold extractFences
    exact extractGo_id _ _ _ (listInput_no_btick items hok)
  rw [hfe]
  unfold pipelineAfterExtract
  rw [headingStage_listInput items hok]
  rw [show boldStage (listInput items) = listInput items from
    boldGo_id _ _ (listInput_noDoubleStar items hok)]
  rw [show italicStage (listInput items) = listInput items from
    italicGo_id _ _ (listInput_noItalicPair items hok)]
  rw [show codeStage (listInput items) = listInput items from
    codeGo_id _ _ (listInput_no_btick items hok)]
  rw [liStar_stage items hok hne2]
  rw [liNum_stage items hok]
  rw [paraStage_lines2 items hok hne]
  show ulWrapStage (joinLines (items.map mkLi) ++ '\n' :: "<p>text</p>".data)
    = _
  unfold ulWrapStage
  exact ulWrap_final items hok hne

/-- C8 witness: the universal statement at the two items `a` and `b`. -/
theorem c8_witness :
    markdownToHtmlCore (listInput ["a".data, "b".data]) =
      "<ul>".data ++ joinLines (["a".data, "b".data].map mkLi) ++
        "\n</ul><p>text</p>".data :=
  c8_list_grouping.1 ["a".data, "b".data] (by simp) (by decide)
